import Mathlib

/-!
Verification development for the yk-dns-manager reconciler core.

The Go sources are embedded shallowly:
* strings are lists of characters (`Str`);
* `config.DomainMap.LookupIP` (unnamed/part_005) as a fuelled label walk
  (the Go `for` loop shortens the walk position every iteration, so
  `length + 1` fuel is never exhausted);
* `dns.SplitHostname` (internal/dns/helpers.go);
* the opnsense provider operations (unnamed/part_007) over an abstract
  transport oracle;
* the annotation-based `HTTPRouteReconciler.Reconcile`
  (internal/controller/httproute_controller.go) as a pure pass returning
  the sequence of provider calls, the resource writes, and the outcome.
-/

namespace YkDns

/-- Strings are modelled as lists of characters. -/
abbrev Str := List Char

/-- Shorthand to write concrete modelled strings. -/
def str (s : String) : Str := s.toList

/-- The record type tag used by the controller for address records. -/
def strA : Str := str "A"

/-- `strings.TrimSuffix(s, ".")`: drop one trailing dot when present. -/
def trimDot (s : Str) : Str :=
  if s.getLast? = some '.' then s.dropLast else s

/-- Split a string at its first dot (`strings.Index(h, ".")` plus slicing):
`some (before, after)` when a dot exists, `none` otherwise. -/
def splitAtDot : Str → Option (Str × Str)
  | [] => none
  | c :: rest =>
    if c = '.' then some ([], rest)
    else (splitAtDot rest).map (fun p => (c :: p.1, p.2))

/-- Go map indexing `entries[k]`, with the map embedded as an association
list (keys are unique in a Go map; lookup is by key equality). -/
def lookupAssoc (entries : List (Str × Str)) (k : Str) : Option Str :=
  (entries.find? (fun e => decide (e.1 = k))).map (fun e => e.2)

/-- The loop of `DomainMap.LookupIP` (unnamed/part_005): walk the label tree
downward; exact entry first, then the wildcard entry for the parent, then
drop the first label.  The Go loop terminates because the walk position
shrinks; the fuel argument plays that role here (callers pass `length + 1`,
which the walk can never exhaust). -/
def lookupGoF (entries : List (Str × Str)) : Nat → Str → Option Str
  | 0, _ => none
  | n + 1, h =>
    if h = [] then none
    else
      match lookupAssoc entries h with
      | some ip => some ip
      | none =>
        match splitAtDot h with
        | none => none
        | some (_, rest) =>
          match lookupAssoc entries ('*' :: '.' :: rest) with
          | some ip => some ip
          | none => lookupGoF entries n rest

/-- `DomainMap.LookupIP` (unnamed/part_005).  Go returns `("", false)` on a
miss; `Option` models the `(string, bool)` pair. -/
def LookupIP (entries : List (Str × Str)) (hostname : Str) : Option Str :=
  lookupGoF entries ((trimDot hostname).length + 1) (trimDot hostname)

/-- The walk positions visited by the lookup loop: the full (trimmed) name,
then repeatedly the remainder after the first label, ending before the
empty string. -/
def visitedF : Nat → Str → List Str
  | 0, _ => []
  | n + 1, h =>
    if h = [] then []
    else
      h :: (match splitAtDot h with
            | none => []
            | some (_, p) => visitedF n p)

/-- `h` with its first label removed (everything after the first dot; the
empty string when `h` is a single label). -/
def parentOf (h : Str) : Str :=
  match splitAtDot h with
  | none => []
  | some (_, p) => p

/-- One step of the reference walk exactly as the claim words it: the exact
entry for `h`, otherwise the entry for the wildcard form
`"*." ++ parentOf h`. -/
def refStepLit (entries : List (Str × Str)) (h : Str) : Option Str :=
  match lookupAssoc entries h with
  | some t => some t
  | none => lookupAssoc entries ('*' :: '.' :: parentOf h)

/-- One step of the reference walk, amended so that the wildcard form is
only consulted when `h` actually contains a dot; at a single-label name the
step checks the exact entry only. -/
def refStepAmended (entries : List (Str × Str)) (h : Str) : Option Str :=
  match lookupAssoc entries h with
  | some t => some t
  | none =>
    match splitAtDot h with
    | none => none
    | some (_, p) => lookupAssoc entries ('*' :: '.' :: p)

/-- The claim's reference priority walk, read literally: strip one trailing
dot, then return the first visited name whose step (exact, else wildcard of
the parent) produces an entry. -/
def refLookupLit (entries : List (Str × Str)) (hostname : Str) : Option Str :=
  (visitedF ((trimDot hostname).length + 1) (trimDot hostname)).findSome?
    (refStepLit entries)

/-- The reference walk with the amended wildcard step. -/
def refLookupAmended (entries : List (Str × Str)) (hostname : Str) : Option Str :=
  (visitedF ((trimDot hostname).length + 1) (trimDot hostname)).findSome?
    (refStepAmended entries)

/-- `dns.SplitHostname` (internal/dns/helpers.go): trim one trailing dot,
then `strings.SplitN(fqdn, ".", 2)` — the part before the first dot and the
whole remainder; `(fqdn, "")` when there is no dot. -/
def SplitHostname (fqdn : Str) : Str × Str :=
  let f := trimDot fqdn
  match splitAtDot f with
  | none => (f, [])
  | some (a, b) => (a, b)

/-! ### Controller data model (internal/controller/httproute_controller.go,
annotation-based version) -/

/-- The finalizer token `dns.yk/cleanup`. -/
def finalizerName : Str := str "dns.yk/cleanup"

/-- `dns.Record` (internal/dns/provider.go); `TTL` is always zero where the
controller builds records, so it is omitted. -/
structure Record where
  hostname : Str
  type : Str
  value : Str
  meta : List (Str × Str)
deriving DecidableEq

/-- One call into the `dns.Provider` interface, as observed by a recording
test double. -/
inductive PCall where
  | existsQ (hostname ty : Str)
  | create (r : Record)
  | update (r : Record)
  | delete (hostname ty : Str)
  | upsert (r : Record)
deriving DecidableEq

/-- A deterministic behaviour of the injected `dns.Provider`: what each
primitive returns when called.  Errors are opaque (`Unit`), matching the
reconciler, which only distinguishes failure from success. -/
structure ProvOracle where
  existsQ : Str → Str → Except Unit Bool
  create : Record → Except Unit Unit
  update : Record → Except Unit Unit
  delete : Str → Str → Except Unit Unit
  upsert : Record → Except Unit Unit

/-- The slice of an HTTPRoute the reconciler reads: declared hostnames,
finalizer list, pending-deletion marker, and the parsed
`dns.yk/managed-hostnames` annotation.  `managedAnn = none` models both an
absent annotation and one `json.Unmarshal` leaves as a nil slice. -/
structure Route where
  hostnames : List Str
  finalizers : List Str
  deleting : Bool
  managedAnn : Option (List Str)
deriving DecidableEq

instance : DecidableEq (Except Unit Unit) := fun a b =>
  match a, b with
  | .ok (), .ok () => isTrue rfl
  | .error (), .error () => isTrue rfl
  | .ok (), .error () => isFalse (fun h => Except.noConfusion h)
  | .error (), .ok () => isFalse (fun h => Except.noConfusion h)

/-- Outcome of one reconcile pass: provider calls in order, resource states
persisted (each `r.Update` that runs), and the returned error status. -/
structure ReconcileOut where
  calls : List PCall
  writes : List Route
  res : Except Unit Unit
deriving DecidableEq

/-- `controllerutil.RemoveFinalizer`: drop every copy of the token. -/
def removeFinalizer (route : Route) : Route :=
  { route with finalizers := route.finalizers.filter (fun f => decide (f ≠ finalizerName)) }

/-- `controllerutil.AddFinalizer`: append the token when missing. -/
def addFinalizer (route : Route) : Route :=
  if finalizerName ∈ route.finalizers then route
  else { route with finalizers := route.finalizers ++ [finalizerName] }

/-- The record the controller builds for a resolved hostname. -/
def mkRecord (h ip : Str) : Record :=
  ⟨h, strA, ip, [(str "description", str "managed by yk-dns-manager")]⟩

/-- The deletion-branch loop: `Delete(hostname, "A")` for each declared
hostname, stopping at the first failure. -/
def deleteAll (P : ProvOracle) : List Str → List PCall × Except Unit Unit
  | [] => ([], .ok ())
  | h :: t =>
    match P.delete h strA with
    | .error e => ([.delete h strA], .error e)
    | .ok _ =>
      let r := deleteAll P t
      (.delete h strA :: r.1, r.2)

/-- The removed-hostnames loop: for each previously managed hostname not in
the current list, `Delete(hostname, "A")`, stopping at the first failure.
The repository's `Contains` helper is not under src/; modelled from the
spec ("absent from `currentSet`") as slice membership. -/
def deleteRemoved (P : ProvOracle) (cur : List Str) : List Str → List PCall × Except Unit Unit
  | [] => ([], .ok ())
  | h :: t =>
    if h ∈ cur then deleteRemoved P cur t
    else
      match P.delete h strA with
      | .error e => ([.delete h strA], .error e)
      | .ok _ =>
        let r := deleteRemoved P cur t
        (.delete h strA :: r.1, r.2)

/-- The update-and-create loop over the declared hostnames: resolve through
the domain map (skip on a miss), then either `Upsert`, or `Exists` followed
by `Create` when absent; stop at the first failure. -/
def syncCurrent (P : ProvOracle) (dm : List (Str × Str)) (upsertMode : Bool) :
    List Str → List PCall × Except Unit Unit
  | [] => ([], .ok ())
  | h :: t =>
    match LookupIP dm h with
    | none => syncCurrent P dm upsertMode t
    | some ip =>
      let record := mkRecord h ip
      if upsertMode then
        match P.upsert record with
        | .error e => ([.upsert record], .error e)
        | .ok _ =>
          let r := syncCurrent P dm upsertMode t
          (.upsert record :: r.1, r.2)
      else
        match P.existsQ h strA with
        | .error e => ([.existsQ h strA], .error e)
        | .ok true =>
          let r := syncCurrent P dm upsertMode t
          (.existsQ h strA :: r.1, r.2)
        | .ok false =>
          match P.create record with
          | .error e => ([.existsQ h strA, .create record], .error e)
          | .ok _ =>
            let r := syncCurrent P dm upsertMode t
            (.existsQ h strA :: .create record :: r.1, r.2)

/-- `reflect.DeepEqual(managedHostnames, currentHostnames)`: the previous
value is a nil slice (annotation absent or unparsable) or the parsed list;
`currentHostnames` is always a non-nil slice, and `DeepEqual` of a nil and
a non-nil slice is false, so `none` compares unequal to everything. -/
def deepEqualGo (prev : Option (List Str)) (cur : List Str) : Bool :=
  match prev with
  | none => false
  | some l => decide (l = cur)

/-- The hostnames the removed-diff loop deletes: previous-set entries
absent from the current list, in previous order (duplicates kept). -/
def removedDiff (prev cur : List Str) : List Str :=
  prev.filter (fun h => decide (h ∉ cur))

/-- `HTTPRouteReconciler.Reconcile` (annotation-based version), for a route
that exists at Get time.  Resource writes (finalizer add/remove, annotation
update) are modelled as single successful persists recorded in `writes`;
the conflict-retry loop around them does not change which write happens. -/
def reconcile (P : ProvOracle) (dm : List (Str × Str)) (upsertMode : Bool)
    (route : Route) : ReconcileOut :=
  if route.deleting then
    if finalizerName ∈ route.finalizers then
      match deleteAll P route.hostnames with
      | (cs, .error _) => ⟨cs, [], .error ()⟩
      | (cs, .ok _) => ⟨cs, [removeFinalizer route], .ok ()⟩
    else ⟨[], [], .ok ()⟩
  else
    if finalizerName ∉ route.finalizers then
      ⟨[], [addFinalizer route], .ok ()⟩
    else
      match deleteRemoved P route.hostnames (route.managedAnn.getD []) with
      | (dc, .error _) => ⟨dc, [], .error ()⟩
      | (dc, .ok _) =>
        match syncCurrent P dm upsertMode route.hostnames with
        | (sc, .error _) => ⟨dc ++ sc, [], .error ()⟩
        | (sc, .ok _) =>
          if deepEqualGo route.managedAnn route.hostnames then
            ⟨dc ++ sc, [], .ok ()⟩
          else
            ⟨dc ++ sc, [{ route with managedAnn := some route.hostnames }], .ok ()⟩

/-- Recognizer for `Delete` calls. -/
def isDeleteCall : PCall → Bool
  | .delete _ _ => true
  | _ => false

/-- Recognizer for `Create`/`Update`/`Upsert` calls. -/
def isMutateCall : PCall → Bool
  | .create _ => true
  | .update _ => true
  | .upsert _ => true
  | _ => false

/-- Whether a recorded call fails under the given provider behaviour. -/
def callFails (P : ProvOracle) : PCall → Bool
  | .existsQ h ty => match P.existsQ h ty with | .error _ => true | .ok _ => false
  | .create r => match P.create r with | .error _ => true | .ok _ => false
  | .update r => match P.update r with | .error _ => true | .ok _ => false
  | .delete h ty => match P.delete h ty with | .error _ => true | .ok _ => false
  | .upsert r => match P.upsert r with | .error _ => true | .ok _ => false

/-- A provider double whose calls all succeed (`Exists` reports false). -/
def okOracle : ProvOracle :=
  ⟨fun _ _ => .ok false, fun _ => .ok (), fun _ => .ok (), fun _ _ => .ok (), fun _ => .ok ()⟩

/-- A provider double whose calls all fail. -/
def errOracle : ProvOracle :=
  ⟨fun _ _ => .error (), fun _ => .error (), fun _ => .error (), fun _ _ => .error (),
   fun _ => .error ()⟩

/-! ### OPNsense provider (unnamed/part_007) -/

/-- One row of the Unbound `searchHostOverride` response. -/
structure HostRow where
  uuid : Str
  enabled : Str
  hostname : Str
  domain : Str
  rr : Str
  server : Str
deriving DecidableEq

/-- `strings.EqualFold`, modelled as case-insensitive list equality. -/
def eqFold (a b : Str) : Bool :=
  decide (a.map Char.toLower = b.map Char.toLower)

/-- The transport behind `doRequest`, abstracted per endpoint: each field is
the decoded, status-checked outcome of one API call (`.error` covers
transport errors, non-200 statuses, decode failures and non-"saved"
results).  Errors are message strings; `fmt.Errorf` wrapping with `%w`
preserves the wrapped error (`errors.Is`), so propagation is modelled as
returning the cause unchanged. -/
structure UnboundApi where
  searchRows : Except Str (List HostRow)
  addHost : Record → Except Str Str
  setHost : Str → Record → Except Str Unit
  delHost : Str → Except Str Unit
  reconfig : Except Str Unit

/-- `findOverride`: search the host overrides for a row whose hostname,
domain (both via `SplitHostname`) and record type match case-insensitively;
`some uuid` on a hit (Go returns `""` for a miss). -/
def findOverride (api : UnboundApi) (fqdn recordType : Str) : Except Str (Option Str) :=
  match api.searchRows with
  | .error e => .error e
  | .ok rows =>
    let hd := SplitHostname fqdn
    .ok ((rows.find? (fun row =>
        eqFold row.hostname hd.1 && eqFold row.domain hd.2 && eqFold row.rr recordType)).map
      (fun row => row.uuid))

/-- `Provider.Exists`: a row was found (uuid non-empty). -/
def existsOp (api : UnboundApi) (hostname recordType : Str) : Except Str Bool :=
  match findOverride api hostname recordType with
  | .error e => .error e
  | .ok u => .ok u.isSome

/-- `Provider.Create`: `addHostOverride` then `reconfigure`. -/
def createOp (api : UnboundApi) (record : Record) : Except Str Unit :=
  match api.addHost record with
  | .error e => .error e
  | .ok _ => api.reconfig

/-- `Provider.Update`: find the existing override, fail when absent, then
`setHostOverride` and `reconfigure`. -/
def updateOp (api : UnboundApi) (record : Record) : Except Str Unit :=
  match findOverride api record.hostname record.type with
  | .error e => .error e
  | .ok none => .error (str "opnsense: no existing override found")
  | .ok (some uuid) =>
    match api.setHost uuid record with
    | .error e => .error e
    | .ok _ => api.reconfig

/-- `Provider.Upsert` as written in the source: check `Exists` (failure
propagates its cause, `%w`-wrapped), then delegate to `Update` or
`Create`. -/
def upsertOp (api : UnboundApi) (record : Record) : Except Str Unit :=
  match existsOp api record.hostname record.type with
  | .error e => .error e
  | .ok ex => if ex then updateOp api record else createOp api record

/-- The composite operation in the spec's words: call `Exists` for the
record's hostname and type; on error fail with that error; if it reports
true the result is `Update(record)`, otherwise `Create(record)`. -/
def specUpsert (api : UnboundApi) (record : Record) : Except Str Unit :=
  match existsOp api record.hostname record.type with
  | .error e => .error e
  | .ok true => updateOp api record
  | .ok false => createOp api record

section SplitLemmas

theorem splitAtDot_eq_none {s : Str} : splitAtDot s = none ↔ '.' ∉ s := by
  induction s with
  | nil => simp [splitAtDot]
  | cons c rest ih =>
    by_cases hc : c = '.'
    · subst hc; simp [splitAtDot]
    · cases hr : splitAtDot rest with
      | none =>
        have hnr : '.' ∉ rest := ih.mp hr
        simp [splitAtDot, hc, hr, List.mem_cons, not_or, hnr]
        intro h
        exact hc h.symm
      | some p =>
        have hin : '.' ∈ rest := by
          by_contra hn
          rw [ih.mpr hn] at hr
          exact Option.noConfusion hr
        simp [splitAtDot, hc, hr, List.mem_cons, hin]

theorem splitAtDot_eq_some {s a b : Str} :
    splitAtDot s = some (a, b) → s = a ++ '.' :: b ∧ '.' ∉ a := by
  induction s generalizing a b with
  | nil => intro h; exact absurd h (by simp [splitAtDot])
  | cons c rest ih =>
    intro h
    by_cases hc : c = '.'
    · subst hc
      simp [splitAtDot] at h
      obtain ⟨rfl, rfl⟩ := h
      simp
    · simp only [splitAtDot, if_neg hc] at h
      cases hr : splitAtDot rest with
      | none => rw [hr] at h; exact absurd h (by simp)
      | some p =>
        obtain ⟨p1, p2⟩ := p
        rw [hr] at h
        simp only [Option.map_some'] at h
        have h2 := Option.some.inj h
        have ha : a = c :: p1 := (congrArg Prod.fst h2).symm
        have hb : b = p2 := (congrArg Prod.snd h2).symm
        subst ha; subst hb
        obtain ⟨hs, hna⟩ := ih hr
        constructor
        · rw [hs]; rfl
        · intro hmem
          rcases List.mem_cons.mp hmem with h1 | h1
          · exact hc h1.symm
          · exact hna h1

theorem splitAtDot_append {a b : Str} (ha : '.' ∉ a) :
    splitAtDot (a ++ '.' :: b) = some (a, b) := by
  induction a with
  | nil => simp [splitAtDot]
  | cons c rest ih =>
    have hc : c ≠ '.' := by
      intro h; exact ha (by simp [h])
    have hrest : '.' ∉ rest := fun h => ha (List.mem_cons_of_mem _ h)
    simp [splitAtDot, hc, ih hrest]

theorem splitAtDot_snd_length {s a b : Str} (h : splitAtDot s = some (a, b)) :
    b.length < s.length := by
  obtain ⟨hs, _⟩ := splitAtDot_eq_some h
  subst hs
  simp [List.length_append]
  omega

end SplitLemmas

section WalkLemmas

theorem trimDot_length (s : Str) : (trimDot s).length ≤ s.length := by
  unfold trimDot
  split
  · simp [List.length_dropLast]
  · exact le_refl _

theorem lookupAssoc_single (k t x : Str) :
    lookupAssoc [(k, t)] x = if k = x then some t else none := by
  by_cases h : k = x
  · subst h; simp [lookupAssoc, List.find?]
  · simp [lookupAssoc, List.find?, h]

/-- The Go lookup loop equals a first-hit scan of the visited walk
positions with the (dot-guarded) per-level step. -/
theorem lookupGoF_eq_findSome (entries : List (Str × Str)) :
    ∀ n h, lookupGoF entries n h =
      (visitedF n h).findSome? (refStepAmended entries) := by
  intro n
  induction n with
  | zero => intro h; simp [lookupGoF, visitedF]
  | succ n ih =>
    intro h
    by_cases hne : h = []
    · simp [lookupGoF, visitedF, hne]
    · cases hx : lookupAssoc entries h with
      | some ip =>
        simp [lookupGoF, visitedF, hne, List.findSome?_cons, refStepAmended, hx]
      | none =>
        cases hsp : splitAtDot h with
        | none =>
          simp [lookupGoF, visitedF, hne, List.findSome?_cons, refStepAmended,
            hx, hsp]
        | some pr =>
          obtain ⟨p0, p⟩ := pr
          cases hw : lookupAssoc entries ('*' :: '.' :: p) with
          | some ip =>
            simp [lookupGoF, visitedF, hne, List.findSome?_cons, refStepAmended,
              hx, hsp, hw]
          | none =>
            simp [lookupGoF, visitedF, hne, List.findSome?_cons, refStepAmended,
              hx, hsp, hw, ih p]

/-- A single wildcard entry never matches at any walk position at most as
long as its bare domain. -/
theorem wildcard_walk_misses (D t : Str) :
    ∀ n h, h.length ≤ D.length → lookupGoF [('*' :: '.' :: D, t)] n h = none := by
  intro n
  induction n with
  | zero => intro h _; rfl
  | succ n ih =>
    intro h hlen
    by_cases hne : h = []
    · simp [lookupGoF, hne]
    · have hxe : ('*' :: '.' :: D : Str) ≠ h := by
        intro he
        have := congrArg List.length he
        simp at this
        omega
      cases hsp : splitAtDot h with
      | none => simp [lookupGoF, hne, lookupAssoc_single, hxe, hsp]
      | some pr =>
        obtain ⟨a, b⟩ := pr
        have hblt : b.length < h.length := splitAtDot_snd_length hsp
        have hbne : D ≠ b := by
          intro he
          subst he
          omega
        have hkne : ('*' :: '.' :: D : Str) ≠ '*' :: '.' :: b := by
          intro he
          simp at he
          exact hbne he
        simp [lookupGoF, hne, lookupAssoc_single, hxe, hsp, hkne,
          ih b (by omega)]

/-- A single wildcard entry for `"*." ++ D` matches every name of the form
`s ++ "." ++ D`. -/
theorem wildcard_walk_hits (D t : Str) :
    ∀ n s, (s ++ '.' :: D).length < n →
      lookupGoF [('*' :: '.' :: D, t)] n (s ++ '.' :: D) = some t := by
  intro n
  induction n with
  | zero => intro s h; omega
  | succ n ih =>
    intro s hlen
    have hne : (s ++ '.' :: D : Str) ≠ [] := by simp
    by_cases hxe : ('*' :: '.' :: D : Str) = s ++ '.' :: D
    · simp [lookupGoF, hne, lookupAssoc_single, hxe]
    · cases hs : splitAtDot s with
      | none =>
        have hnd : '.' ∉ s := splitAtDot_eq_none.mp hs
        have hsp : splitAtDot (s ++ '.' :: D) = some (s, D) := splitAtDot_append hnd
        simp [lookupGoF, hne, lookupAssoc_single, hxe, hsp]
      | some pr =>
        obtain ⟨s1, s2⟩ := pr
        obtain ⟨hseq, hnd1⟩ := splitAtDot_eq_some hs
        have hsp : splitAtDot (s ++ '.' :: D) = some (s1, s2 ++ '.' :: D) := by
          rw [hseq, List.append_assoc, List.cons_append]
          exact splitAtDot_append hnd1
        have hk : ('*' :: '.' :: D : Str) ≠ '*' :: '.' :: (s2 ++ '.' :: D) := by
          intro he
          simp at he
          have := congrArg List.length he
          simp at this
          omega
        have hlen2 : (s2 ++ '.' :: D).length < n := by
          have h1 := congrArg List.length hseq
          simp at h1 ⊢
          simp at hlen
          omega
        simp [lookupGoF, hne, lookupAssoc_single, hxe, hsp, hk, ih s2 hlen2]

theorem trimDot_of_getLast {s : Str} (h : s.getLast? ≠ some '.') :
    trimDot s = s := by
  simp [trimDot, h]

theorem getLast?_append_cons_ne {D : Str} (s : Str) (c : Char) (hD : D ≠ []) :
    (s ++ c :: D).getLast? = D.getLast? := by
  rw [List.getLast?_append_cons]
  cases D with
  | nil => exact absurd rfl hD
  | cons d ds => exact List.getLast?_cons_cons

end WalkLemmas

section ControllerLemmas

theorem deleteAll_ok {P : ProvOracle} : ∀ {hs : List Str},
    (∀ h ∈ hs, P.delete h strA = .ok ()) →
    deleteAll P hs = (hs.map (fun h => PCall.delete h strA), .ok ()) := by
  intro hs
  induction hs with
  | nil => intro _; rfl
  | cons h t ih =>
    intro hok
    have hh := hok h (List.mem_cons_self h t)
    simp [deleteAll, hh, ih (fun x hx => hok x (List.mem_cons_of_mem _ hx))]

theorem deleteAll_fail {P : ProvOracle} {h : Str} {l₂ : List Str}
    (hf : P.delete h strA = .error ()) :
    ∀ l₁, (∀ x ∈ l₁, P.delete x strA = .ok ()) →
    deleteAll P (l₁ ++ h :: l₂) =
      (l₁.map (fun x => PCall.delete x strA) ++ [PCall.delete h strA], .error ()) := by
  intro l₁
  induction l₁ with
  | nil => intro _; simp [deleteAll, hf]
  | cons a t ih =>
    intro hok
    have ha := hok a (List.mem_cons_self a t)
    simp [deleteAll, ha, ih (fun x hx => hok x (List.mem_cons_of_mem _ hx))]

theorem deleteAll_all_deletes {P : ProvOracle} : ∀ {hs : List Str},
    ∀ c ∈ (deleteAll P hs).1, isDeleteCall c = true := by
  intro hs
  induction hs with
  | nil => intro c hc; simp [deleteAll] at hc
  | cons h t ih =>
    intro c hc
    cases hd : P.delete h strA with
    | error e =>
      simp [deleteAll, hd] at hc
      simp [hc, isDeleteCall]
    | ok u =>
      simp [deleteAll, hd] at hc
      rcases hc with rfl | hc
      · simp [isDeleteCall]
      · exact ih c hc

theorem deleteAll_ok_no_fail {P : ProvOracle} : ∀ {hs : List Str},
    (deleteAll P hs).2 = .ok () →
    ∀ c ∈ (deleteAll P hs).1, callFails P c = false := by
  intro hs
  induction hs with
  | nil => intro _ c hc; simp [deleteAll] at hc
  | cons h t ih =>
    intro hres c hc
    cases hd : P.delete h strA with
    | error e => simp [deleteAll, hd] at hres
    | ok u =>
      simp [deleteAll, hd] at hres hc
      rcases hc with rfl | hc
      · simp [callFails, hd]
      · exact ih hres c hc

theorem removedDiff_cons {h : Str} {t cur : List Str} :
    removedDiff (h :: t) cur =
      if h ∈ cur then removedDiff t cur else h :: removedDiff t cur := by
  by_cases hmem : h ∈ cur <;> simp [removedDiff, List.filter_cons, hmem]

theorem deleteRemoved_ok {P : ProvOracle} {cur : List Str} : ∀ {l : List Str},
    (∀ h ∈ removedDiff l cur, P.delete h strA = .ok ()) →
    deleteRemoved P cur l = ((removedDiff l cur).map (fun h => PCall.delete h strA), .ok ()) := by
  intro l
  induction l with
  | nil => intro _; rfl
  | cons h t ih =>
    intro hok
    rw [removedDiff_cons] at hok ⊢
    by_cases hmem : h ∈ cur
    · rw [if_pos hmem] at hok ⊢
      simp [deleteRemoved, hmem]
      exact ih hok
    · rw [if_neg hmem] at hok ⊢
      have hd : P.delete h strA = .ok () := hok h (List.mem_cons_self _ _)
      simp [deleteRemoved, hmem, hd,
        ih (fun x hx => hok x (List.mem_cons_of_mem _ hx))]

theorem deleteRemoved_all_deletes {P : ProvOracle} {cur : List Str} : ∀ {l : List Str},
    ∀ c ∈ (deleteRemoved P cur l).1, isDeleteCall c = true := by
  intro l
  induction l with
  | nil => intro c hc; simp [deleteRemoved] at hc
  | cons h t ih =>
    intro c hc
    by_cases hmem : h ∈ cur
    · rw [deleteRemoved, if_pos hmem] at hc
      exact ih c hc
    · cases hd : P.delete h strA with
      | error e =>
        rw [deleteRemoved, if_neg hmem] at hc
        simp [hd] at hc
        simp [hc, isDeleteCall]
      | ok u =>
        rw [deleteRemoved, if_neg hmem] at hc
        simp [hd] at hc
        rcases hc with rfl | hc
        · simp [isDeleteCall]
        · exact ih c hc

theorem deleteRemoved_ok_no_fail {P : ProvOracle} {cur : List Str} : ∀ {l : List Str},
    (deleteRemoved P cur l).2 = .ok () →
    ∀ c ∈ (deleteRemoved P cur l).1, callFails P c = false := by
  intro l
  induction l with
  | nil => intro _ c hc; simp [deleteRemoved] at hc
  | cons h t ih =>
    intro hres c hc
    by_cases hmem : h ∈ cur
    · rw [deleteRemoved, if_pos hmem] at hc hres
      exact ih hres c hc
    · cases hd : P.delete h strA with
      | error e =>
        rw [deleteRemoved, if_neg hmem] at hres
        simp [hd] at hres
      | ok u =>
        rw [deleteRemoved, if_neg hmem] at hc hres
        simp [hd] at hc hres
        rcases hc with rfl | hc
        · simp [callFails, hd]
        · exact ih hres c hc

theorem syncCurrent_no_deletes {P : ProvOracle} {dm : List (Str × Str)} {um : Bool} :
    ∀ {l : List Str}, ∀ c ∈ (syncCurrent P dm um l).1, isDeleteCall c = false := by
  intro l
  induction l with
  | nil => intro c hc; simp [syncCurrent] at hc
  | cons h t ih =>
    intro c hc
    cases hip : LookupIP dm h with
    | none =>
      rw [syncCurrent] at hc
      simp [hip] at hc
      exact ih c hc
    | some ip =>
      rw [syncCurrent] at hc
      cases um with
      | true =>
        cases hu : P.upsert (mkRecord h ip) with
        | error e =>
          simp [hip, hu] at hc
          simp [hc, isDeleteCall]
        | ok u =>
          simp [hip, hu] at hc
          rcases hc with rfl | hc
          · simp [isDeleteCall]
          · exact ih c hc
      | false =>
        cases he : P.existsQ h strA with
        | error e =>
          simp [hip, he] at hc
          simp [hc, isDeleteCall]
        | ok b =>
          cases b with
          | true =>
            simp [hip, he] at hc
            rcases hc with rfl | hc
            · simp [isDeleteCall]
            · exact ih c hc
          | false =>
            cases hcr : P.create (mkRecord h ip) with
            | error e =>
              simp [hip, he, hcr] at hc
              rcases hc with rfl | rfl <;> simp [isDeleteCall]
            | ok u =>
              simp [hip, he, hcr] at hc
              rcases hc with rfl | rfl | hc
              · simp [isDeleteCall]
              · simp [isDeleteCall]
              · exact ih c hc

theorem syncCurrent_ok_no_fail {P : ProvOracle} {dm : List (Str × Str)} {um : Bool} :
    ∀ {l : List Str}, (syncCurrent P dm um l).2 = .ok () →
    ∀ c ∈ (syncCurrent P dm um l).1, callFails P c = false := by
  intro l
  induction l with
  | nil => intro _ c hc; simp [syncCurrent] at hc
  | cons h t ih =>
    intro hres c hc
    cases hip : LookupIP dm h with
    | none =>
      rw [syncCurrent] at hc hres
      simp [hip] at hc hres
      exact ih hres c hc
    | some ip =>
      rw [syncCurrent] at hc hres
      cases um with
      | true =>
        cases hu : P.upsert (mkRecord h ip) with
        | error e => simp [hip, hu] at hres
        | ok u =>
          simp [hip, hu] at hc hres
          rcases hc with rfl | hc
          · simp [callFails, hu]
          · exact ih hres c hc
      | false =>
        cases he : P.existsQ h strA with
        | error e => simp [hip, he] at hres
        | ok b =>
          cases b with
          | true =>
            simp [hip, he] at hc hres
            rcases hc with rfl | hc
            · simp [callFails, he]
            · exact ih hres c hc
          | false =>
            cases hcr : P.create (mkRecord h ip) with
            | error e => simp [hip, he, hcr] at hres
            | ok u =>
              simp [hip, he, hcr] at hc hres
              rcases hc with rfl | rfl | hc
              · simp [callFails, he]
              · simp [callFails, hcr]
              · exact ih hres c hc

theorem delete_not_mutate {c : PCall} (h : isDeleteCall c = true) :
    isMutateCall c = false := by
  cases c <;> simp [isDeleteCall, isMutateCall] at h ⊢

theorem count_map_delete (l : List Str) (h : Str) :
    (l.map (fun x => PCall.delete x strA)).count (PCall.delete h strA) = l.count h := by
  induction l with
  | nil => rfl
  | cons a t ih =>
    simp [List.count_cons, ih]

theorem count_removedDiff {cur : List Str} {h : Str} (hn : h ∉ cur) :
    ∀ prev : List Str, (removedDiff prev cur).count h = prev.count h := by
  intro prev
  induction prev with
  | nil => rfl
  | cons a t ih =>
    rw [removedDiff_cons]
    by_cases hmem : a ∈ cur
    · rw [if_pos hmem]
      have hah : a ≠ h := fun he => hn (he ▸ hmem)
      simp [List.count_cons, ih, Ne.symm hah]
    · rw [if_neg hmem]
      simp [List.count_cons, ih]

end ControllerLemmas

/-! ### Claim theorems -/

/-- C1, counterexample: the claim's reference walk, read literally, checks
the wildcard form `"*." + (h minus its first label)` at every visited name,
so at the single-label name `"a"` it consults the degenerate key `"*."`;
`LookupIP` breaks out of the loop before the wildcard check when the walk
position has no dot, so on the domain map `{"*.": "T"}` the two disagree at
hostname `"a"`. -/
theorem c1_literal_walk_counterexample :
    LookupIP [(str "*.", str "T")] (str "a") = none ∧
    refLookupLit [(str "*.", str "T")] (str "a") = some (str "T") ∧
    LookupIP [(str "*.", str "T")] (str "a") ≠
      refLookupLit [(str "*.", str "T")] (str "a") :=
  ⟨by decide, by decide, by decide⟩

/-- C1, amended: for every domain map and hostname, `LookupIP` returns
exactly the result of the reference priority walk — strip one trailing dot,
visit suffixes downward one label at a time, exact entry first, then the
wildcard entry for the parent — with the wildcard check performed only at
visited names that still contain a dot (it is skipped at a single-label
name, where the loop ends instead). -/
theorem c1_lookupIP_eq_reference_walk (entries : List (Str × Str)) (hostname : Str) :
    LookupIP entries hostname = refLookupAmended entries hostname :=
  lookupGoF_eq_findSome entries _ _

/-- C2: on a pass for a resource with a pending deletion marker — if the
finalizer token is present and every `Delete` succeeds, `Delete(h, "A")` is
called for every declared hostname in declared order, then the finalizer is
removed and the resource persisted; the first `Delete` failure aborts the
pass with an error, with no resource write (finalizer kept); if the token
is absent, the pass makes no provider calls and no writes and succeeds. -/
theorem c2_deleting_pass_protocol (P : ProvOracle) (dm : List (Str × Str)) (um : Bool)
    (hs fins : List Str) (ann : Option (List Str)) :
    (finalizerName ∈ fins →
      (∀ h ∈ hs, P.delete h strA = .ok ()) →
      reconcile P dm um ⟨hs, fins, true, ann⟩ =
        ⟨hs.map (fun h => PCall.delete h strA),
         [⟨hs, fins.filter (fun f => decide (f ≠ finalizerName)), true, ann⟩], .ok ()⟩) ∧
    (∀ l₁ h l₂, finalizerName ∈ fins → hs = l₁ ++ h :: l₂ →
      (∀ x ∈ l₁, P.delete x strA = .ok ()) → P.delete h strA = .error () →
      reconcile P dm um ⟨hs, fins, true, ann⟩ =
        ⟨l₁.map (fun x => PCall.delete x strA) ++ [PCall.delete h strA], [], .error ()⟩) ∧
    (finalizerName ∉ fins →
      reconcile P dm um ⟨hs, fins, true, ann⟩ = ⟨[], [], .ok ()⟩) := by
  refine ⟨?_, ?_, ?_⟩
  · intro hfin hok
    simp [reconcile, hfin, deleteAll_ok hok, removeFinalizer]
  · intro l₁ h l₂ hfin hsplit hok hf
    subst hsplit
    simp [reconcile, hfin, deleteAll_fail hf l₁ hok]
  · intro hfin
    simp [reconcile, hfin]

/-- C2 witness: the three branches at concrete inputs. -/
theorem c2_witness :
    reconcile okOracle [] false ⟨[str "a"], [finalizerName], true, none⟩ =
      ⟨[PCall.delete (str "a") strA], [⟨[str "a"], [], true, none⟩], .ok ()⟩ ∧
    reconcile errOracle [] false ⟨[str "a"], [finalizerName], true, none⟩ =
      ⟨[PCall.delete (str "a") strA], [], .error ()⟩ ∧
    reconcile okOracle [] false ⟨[str "a"], [], true, none⟩ = ⟨[], [], .ok ()⟩ := by
  refine ⟨?_, ?_, ?_⟩
  · have h1 := (c2_deleting_pass_protocol okOracle [] false [str "a"] [finalizerName] none).1
      (List.mem_cons_self _ _) (fun _ _ => rfl)
    rw [h1]
    decide
  · have h2 := (c2_deleting_pass_protocol errOracle [] false [str "a"] [finalizerName] none).2.1
      [] (str "a") [] (List.mem_cons_self _ _) rfl
      (fun x hx => absurd hx (List.not_mem_nil x)) rfl
    rw [h2]
    decide
  · exact (c2_deleting_pass_protocol okOracle [] false [str "a"] [] none).2.2 (by simp)

/-- C3: in a steady-state pass whose removal deletions succeed, the
`Delete` calls issued are exactly one per previously-managed hostname
absent from the current list, in the previous list's order. -/
theorem c3_steady_deletes_are_removed_diff (P : ProvOracle) (dm : List (Str × Str))
    (um : Bool) (cur prev : List Str)
    (hok : ∀ h ∈ removedDiff prev cur, P.delete h strA = .ok ()) :
    (reconcile P dm um ⟨cur, [finalizerName], false, some prev⟩).calls.filter isDeleteCall =
      (removedDiff prev cur).map (fun h => PCall.delete h strA) := by
  have hfin : finalizerName ∈ [finalizerName] := List.mem_cons_self _ _
  have hdr := @deleteRemoved_ok P cur prev hok
  rcases hsc : syncCurrent P dm um cur with ⟨sc, r2⟩
  have hfilter_dc :
      ((removedDiff prev cur).map (fun h => PCall.delete h strA)).filter isDeleteCall =
        (removedDiff prev cur).map (fun h => PCall.delete h strA) := by
    apply List.filter_eq_self.mpr
    intro c hc
    simp at hc
    obtain ⟨x, _, rfl⟩ := hc
    simp [isDeleteCall]
  have hfilter_sc : sc.filter isDeleteCall = [] := by
    apply List.filter_eq_nil_iff.mpr
    intro c hc
    have hnd := @syncCurrent_no_deletes P dm um cur c (by rw [hsc]; exact hc)
    simp [hnd]
  cases r2 with
  | error e =>
    simp [reconcile, hfin, hdr, hsc, List.filter_append, hfilter_dc, hfilter_sc]
  | ok u =>
    cases hde : deepEqualGo (some prev) cur with
    | true => simp [reconcile, hfin, hdr, hsc, hde, List.filter_append, hfilter_dc, hfilter_sc]
    | false => simp [reconcile, hfin, hdr, hsc, hde, List.filter_append, hfilter_dc, hfilter_sc]

/-- C3 witness at a concrete steady-state pass. -/
theorem c3_witness :
    (reconcile okOracle [] false ⟨[str "b"], [finalizerName], false,
        some [str "a", str "b"]⟩).calls.filter isDeleteCall =
      (removedDiff [str "a", str "b"] [str "b"]).map (fun h => PCall.delete h strA) :=
  c3_steady_deletes_are_removed_diff okOracle [] false [str "b"] [str "a", str "b"]
    (fun _ _ => rfl)

/-- C4: in every pass the call trace splits into a first part free of
`Create`/`Update`/`Upsert` calls followed by a part free of `Delete` calls:
every deletion strictly precedes every creation/update in the provider-call
sequence. -/
theorem c4_deletes_precede_mutations (P : ProvOracle) (dm : List (Str × Str))
    (um : Bool) (route : Route) :
    ∃ l₁ l₂, (reconcile P dm um route).calls = l₁ ++ l₂ ∧
      (∀ c ∈ l₁, isMutateCall c = false) ∧ (∀ c ∈ l₂, isDeleteCall c = false) := by
  cases hdel : route.deleting with
  | true =>
    by_cases hfin : finalizerName ∈ route.finalizers
    · rcases hda : deleteAll P route.hostnames with ⟨cs, r⟩
      have hcs : ∀ c ∈ cs, isMutateCall c = false := by
        intro c hc
        exact delete_not_mutate (deleteAll_all_deletes c (by rw [hda]; exact hc))
      cases r with
      | error e =>
        exact ⟨cs, [], by simp [reconcile, hdel, hfin, hda], hcs, by simp⟩
      | ok u =>
        exact ⟨cs, [], by simp [reconcile, hdel, hfin, hda], hcs, by simp⟩
    · exact ⟨[], [], by simp [reconcile, hdel, hfin], by simp, by simp⟩
  | false =>
    by_cases hfin : finalizerName ∈ route.finalizers
    · rcases hdr : deleteRemoved P route.hostnames (route.managedAnn.getD []) with ⟨dc, r⟩
      have hdc : ∀ c ∈ dc, isMutateCall c = false := by
        intro c hc
        exact delete_not_mutate (deleteRemoved_all_deletes c (by rw [hdr]; exact hc))
      cases r with
      | error e =>
        exact ⟨dc, [], by simp [reconcile, hdel, hfin, hdr], hdc, by simp⟩
      | ok u =>
        rcases hsc : syncCurrent P dm um route.hostnames with ⟨sc, r2⟩
        have hsc2 : ∀ c ∈ sc, isDeleteCall c = false := by
          intro c hc
          exact syncCurrent_no_deletes c (by rw [hsc]; exact hc)
        cases r2 with
        | error e =>
          exact ⟨dc, sc, by simp [reconcile, hdel, hfin, hdr, hsc], hdc, hsc2⟩
        | ok u2 =>
          cases hde : deepEqualGo route.managedAnn route.hostnames with
          | true =>
            exact ⟨dc, sc, by simp [reconcile, hdel, hfin, hdr, hsc, hde], hdc, hsc2⟩
          | false =>
            exact ⟨dc, sc, by simp [reconcile, hdel, hfin, hdr, hsc, hde], hdc, hsc2⟩
    · exact ⟨[], [], by simp [reconcile, hdel, hfin], by simp, by simp⟩

/-- C5, counterexample: with previous set `["a","b"]` and current list
`["b","a"]` — equal as sets — the pass still persists the managed-hostname
state, because the code compares with `reflect.DeepEqual` on ordered
lists; the claim says no write happens when the two are equal as sets. -/
theorem c5_set_equal_still_writes :
    (reconcile okOracle [] false ⟨[str "b", str "a"], [finalizerName], false,
        some [str "a", str "b"]⟩).writes =
      [⟨[str "b", str "a"], [finalizerName], false, some [str "b", str "a"]⟩] ∧
    ([str "a", str "b"] : List Str).toFinset = ([str "b", str "a"] : List Str).toFinset :=
  ⟨by decide, by decide⟩

/-- C5, amended: at the end of a successful steady-state pass the managed
state is written back if and only if the previously persisted list differs
from the current list as ordered lists (Go `reflect.DeepEqual`; an absent
or unparsable annotation compares unequal to everything); the write stores
the current list. -/
theorem c5_persist_iff_list_changed (P : ProvOracle) (dm : List (Str × Str)) (um : Bool)
    (cur fins : List Str) (ann : Option (List Str))
    (hfin : finalizerName ∈ fins)
    (hdr : (deleteRemoved P cur (ann.getD [])).2 = .ok ())
    (hsr : (syncCurrent P dm um cur).2 = .ok ()) :
    (reconcile P dm um ⟨cur, fins, false, ann⟩).res = .ok () ∧
    (reconcile P dm um ⟨cur, fins, false, ann⟩).writes =
      (if deepEqualGo ann cur then [] else [⟨cur, fins, false, some cur⟩]) := by
  rcases hdr2 : deleteRemoved P cur (ann.getD []) with ⟨dc, r⟩
  rcases hsc2 : syncCurrent P dm um cur with ⟨sc, r2⟩
  rw [hdr2] at hdr
  rw [hsc2] at hsr
  simp at hdr hsr
  subst hdr
  subst hsr
  cases hde : deepEqualGo ann cur with
  | true => constructor <;> simp [reconcile, hfin, hdr2, hsc2, hde]
  | false => constructor <;> simp [reconcile, hfin, hdr2, hsc2, hde]

/-- C5 witness: first steady pass with no annotation writes the list. -/
theorem c5_witness :
    (reconcile okOracle [] false ⟨[str "a"], [finalizerName], false, none⟩).res = .ok () ∧
    (reconcile okOracle [] false ⟨[str "a"], [finalizerName], false, none⟩).writes =
      (if deepEqualGo none [str "a"] then []
       else [⟨[str "a"], [finalizerName], false, some [str "a"]⟩]) :=
  c5_persist_iff_list_changed okOracle [] false [str "a"] [finalizerName] none
    (List.mem_cons_self _ _) rfl rfl

/-- C6: whenever some issued provider call fails, the pass returns an error
and performs no resource write at all — in particular the persisted
managed-hostname state is unchanged (no partial commit). -/
theorem c6_provider_failure_aborts (P : ProvOracle) (dm : List (Str × Str))
    (um : Bool) (route : Route)
    (hfail : ∃ c ∈ (reconcile P dm um route).calls, callFails P c = true) :
    (reconcile P dm um route).res = .error () ∧ (reconcile P dm um route).writes = [] := by
  cases hdel : route.deleting with
  | true =>
    by_cases hfin : finalizerName ∈ route.finalizers
    · rcases hda : deleteAll P route.hostnames with ⟨cs, r⟩
      cases r with
      | error e => constructor <;> simp [reconcile, hdel, hfin, hda]
      | ok u =>
        cases u
        exfalso
        obtain ⟨c, hc, hcf⟩ := hfail
        rw [show (reconcile P dm um route).calls = cs by
          simp [reconcile, hdel, hfin, hda]] at hc
        have hok : callFails P c = false :=
          deleteAll_ok_no_fail (by rw [hda]) c (by rw [hda]; exact hc)
        rw [hcf] at hok
        exact Bool.noConfusion hok
    · obtain ⟨c, hc, _⟩ := hfail
      rw [show (reconcile P dm um route).calls = [] by simp [reconcile, hdel, hfin]] at hc
      simp at hc
  | false =>
    by_cases hfin : finalizerName ∈ route.finalizers
    · rcases hdr : deleteRemoved P route.hostnames (route.managedAnn.getD []) with ⟨dc, r⟩
      cases r with
      | error e => constructor <;> simp [reconcile, hdel, hfin, hdr]
      | ok u =>
        cases u
        rcases hsc : syncCurrent P dm um route.hostnames with ⟨sc, r2⟩
        cases r2 with
        | error e => constructor <;> simp [reconcile, hdel, hfin, hdr, hsc]
        | ok u2 =>
          cases u2
          exfalso
          obtain ⟨c, hc, hcf⟩ := hfail
          have hcalls : (reconcile P dm um route).calls = dc ++ sc := by
            cases hde : deepEqualGo route.managedAnn route.hostnames with
            | true => simp [reconcile, hdel, hfin, hdr, hsc, hde]
            | false => simp [reconcile, hdel, hfin, hdr, hsc, hde]
          rw [hcalls] at hc
          rcases List.mem_append.mp hc with h1 | h1
          · have hok : callFails P c = false :=
              deleteRemoved_ok_no_fail (by rw [hdr]) c (by rw [hdr]; exact h1)
            rw [hcf] at hok
            exact Bool.noConfusion hok
          · have hok : callFails P c = false :=
              syncCurrent_ok_no_fail (by rw [hsc]) c (by rw [hsc]; exact h1)
            rw [hcf] at hok
            exact Bool.noConfusion hok
    · obtain ⟨c, hc, _⟩ := hfail
      rw [show (reconcile P dm um route).calls = [] by simp [reconcile, hdel, hfin]] at hc
      simp at hc

/-- C6 witness: a failing removal delete aborts the pass with no writes. -/
theorem c6_witness :
    (reconcile errOracle [] false ⟨[], [finalizerName], false, some [str "a"]⟩).res =
      .error () ∧
    (reconcile errOracle [] false ⟨[], [finalizerName], false, some [str "a"]⟩).writes = [] :=
  c6_provider_failure_aborts errOracle [] false
    ⟨[], [finalizerName], false, some [str "a"]⟩ (by decide)

/-- C7: a wildcard entry `"*." ++ D` never matches the bare domain `D`
itself (for any `D`), matches every strict sub-label `s ++ "." ++ D`, and
concretely on `{"*.a.com": "T1"}` the lookup of `"x.a.com"` yields `"T1"`
while `"a.com"` is not found. -/
theorem c7_wildcard_strict_sublabels :
    (∀ D t, LookupIP [('*' :: '.' :: D, t)] D = none) ∧
    (∀ s D t, s ≠ [] → D ≠ [] → D.getLast? ≠ some '.' →
      LookupIP [('*' :: '.' :: D, t)] (s ++ '.' :: D) = some t) ∧
    LookupIP [(str "*.a.com", str "T1")] (str "x.a.com") = some (str "T1") ∧
    LookupIP [(str "*.a.com", str "T1")] (str "a.com") = none := by
  refine ⟨?_, ?_, by decide, by decide⟩
  · intro D t
    exact wildcard_walk_misses D t _ _ (trimDot_length D)
  · intro s D t hs hD hlast
    have htrim : trimDot (s ++ '.' :: D) = s ++ '.' :: D := by
      apply trimDot_of_getLast
      rw [getLast?_append_cons_ne s '.' hD]
      exact hlast
    unfold LookupIP
    rw [htrim]
    exact wildcard_walk_hits D t ((s ++ '.' :: D).length + 1) s (Nat.lt_succ_self _)

/-- C7 witness: the general sub-label part at `s = "x"`, `D = "a.com"`. -/
theorem c7_witness :
    LookupIP [('*' :: '.' :: str "a.com", str "T1")] (str "x" ++ '.' :: str "a.com") =
      some (str "T1") :=
  c7_wildcard_strict_sublabels.2.1 (str "x") (str "a.com") (str "T1")
    (by decide) (by decide) (by decide)

/-- C8: the provider's `Upsert` equals the spec-side composition — `Exists`
first (propagating its failure), then `Update` when the record exists,
otherwise `Create`. -/
theorem c8_upsert_is_exists_update_create (api : UnboundApi) (record : Record) :
    upsertOp api record = specUpsert api record := by
  unfold upsertOp specUpsert
  cases existsOp api record.hostname record.type with
  | error e => rfl
  | ok b => cases b <;> rfl

/-- C9, counterexample: with the previously persisted set `["a","a"]` and
no current hostnames, the removal loop issues two `Delete` calls for `"a"`;
the claim says a duplicated absent hostname yields exactly one. -/
theorem c9_duplicate_deletes_twice :
    (reconcile okOracle [] false ⟨[], [finalizerName], false,
        some [str "a", str "a"]⟩).calls =
      [PCall.delete (str "a") strA, PCall.delete (str "a") strA] ∧
    ((reconcile okOracle [] false ⟨[], [finalizerName], false,
        some [str "a", str "a"]⟩).calls.count (PCall.delete (str "a") strA)) = 2 :=
  ⟨by decide, by decide⟩

/-- C9, amended: the removal diff preserves multiplicity — a hostname
occurring n times in the previous set and absent from the current list
receives exactly n `Delete` calls in the pass. -/
theorem c9_delete_multiplicity (P : ProvOracle) (dm : List (Str × Str)) (um : Bool)
    (cur prev : List Str) (h : Str)
    (hn : h ∉ cur)
    (hok : ∀ x ∈ removedDiff prev cur, P.delete x strA = .ok ()) :
    ((reconcile P dm um ⟨cur, [finalizerName], false, some prev⟩).calls.count
      (PCall.delete h strA)) = prev.count h := by
  have hfin : finalizerName ∈ [finalizerName] := List.mem_cons_self _ _
  have hdr := @deleteRemoved_ok P cur prev hok
  rcases hsc : syncCurrent P dm um cur with ⟨sc, r2⟩
  have hsc0 : sc.count (PCall.delete h strA) = 0 := by
    rw [List.count_eq_zero]
    intro hmem
    have hnd := @syncCurrent_no_deletes P dm um cur _ (by rw [hsc]; exact hmem)
    simp [isDeleteCall] at hnd
  have hcalls : (reconcile P dm um ⟨cur, [finalizerName], false, some prev⟩).calls =
      (removedDiff prev cur).map (fun x => PCall.delete x strA) ++ sc := by
    cases r2 with
    | error e => simp [reconcile, hfin, hdr, hsc]
    | ok u =>
      cases hde : deepEqualGo (some prev) cur with
      | true => simp [reconcile, hfin, hdr, hsc, hde]
      | false => simp [reconcile, hfin, hdr, hsc, hde]
  rw [hcalls, List.count_append, count_map_delete, count_removedDiff hn prev, hsc0]
  exact Nat.add_zero _

/-- C9 witness for the amended multiplicity statement. -/
theorem c9_witness :
    ((reconcile okOracle [] false ⟨[str "b"], [finalizerName], false,
        some [str "a", str "a"]⟩).calls.count (PCall.delete (str "a") strA)) =
      ([str "a", str "a"] : List Str).count (str "a") :=
  c9_delete_multiplicity okOracle [] false [str "b"] [str "a", str "a"] (str "a")
    (by decide) (fun _ _ => rfl)

/-- C10: `SplitHostname` leaves a dotless input whole with an empty domain;
when the domain part is non-empty the hostname part is dot-free and
`hostname ++ "." ++ domain` reassembles the dot-trimmed input; and
`"sub.app.example.com"` splits at the first dot into
`("sub", "app.example.com")`. -/
theorem c10_splitHostname_spec (s : Str) :
    ('.' ∉ s → SplitHostname s = (s, [])) ∧
    (∀ h d, SplitHostname s = (h, d) → d ≠ [] →
      h ++ '.' :: d = trimDot s ∧ '.' ∉ h) ∧
    SplitHostname (str "sub.app.example.com") = (str "sub", str "app.example.com") := by
  refine ⟨?_, ?_, by decide⟩
  · intro hnd
    have htrim : trimDot s = s := by
      apply trimDot_of_getLast
      intro hlast
      obtain ⟨hne, heq⟩ :=
        List.mem_getLast?_eq_getLast (l := s) (x := '.') (Option.mem_def.mpr hlast)
      exact hnd (heq ▸ List.getLast_mem hne)
    simp [SplitHostname, htrim, splitAtDot_eq_none.mpr hnd]
  · intro h d heq hdne
    simp only [SplitHostname] at heq
    cases hsp : splitAtDot (trimDot s) with
    | none =>
      rw [hsp] at heq
      simp at heq
      exact absurd heq.2 hdne
    | some p =>
      obtain ⟨a, b⟩ := p
      rw [hsp] at heq
      simp at heq
      obtain ⟨ha, hb⟩ := heq
      subst ha
      subst hb
      obtain ⟨hs2, hna⟩ := splitAtDot_eq_some hsp
      exact ⟨hs2.symm, hna⟩

/-- C10 witness: the no-dot case and the round-trip case, concretely. -/
theorem c10_witness :
    SplitHostname (str "abc") = (str "abc", []) ∧
    (str "sub" ++ '.' :: str "app.example.com" = trimDot (str "sub.app.example.com.") ∧
      '.' ∉ (str "sub")) :=
  ⟨(c10_splitHostname_spec (str "abc")).1 (by decide),
   (c10_splitHostname_spec (str "sub.app.example.com.")).2.1 (str "sub")
     (str "app.example.com") (by decide) (by decide)⟩

end YkDns
